import Mathlib

/-!
Shallow embedding of the object model and codec of a small content-addressable
object store (a git-style object database) written in Rust, together with
theorems settling a list of specification claims about it.

Modelling conventions:
* Rust byte buffers, `String` and `str` values are all modelled as `List Nat`
  with each element intended to be a byte value below 256.  The program builds
  `String` values that are not valid UTF-8 (via `from_utf8_unchecked`), so a
  byte-level model is the accurate semantics for its text handling.
* Fallible Rust operations are modelled with the `Outcome` type below: `ok` for
  success, `err` for a value returned through `Result::Err`, and `panic` for
  process termination through `unwrap`, `expect`, `panic!` or slice indexing.
* External crates (sha1, zlib, the filesystem) are modelled as explicit
  function parameters: the digest function has type `List Nat → List Nat`, the
  filesystem read has type `List Nat → Option (List Nat)` (path to contents),
  and zlib decompression has type `List Nat → Option (List Nat)`.
-/

namespace GitRs

/-- Labels for the distinct panic sites of the program, so that different
panics are distinguishable in the model.  Each label is documented at the
definition that can produce it; `unknownObjectType` carries the offending kind
token, mirroring the message of the `panic!` call. -/
inductive PanicMsg where
  | hexDecodeUnwrap
  | tryIntoExpect
  | headerSplitUnwrap
  | lengthParseUnwrap
  | indexOutOfBounds
  | sliceFail
  | unknownObjectType (kind : List Nat)
  | descSplitUnwrap
  | fsReadUnwrap
  | zlibUnwrap
deriving DecidableEq, Repr

/-- The three ways a fallible Rust computation can end: a successful value, a
value returned through `Result::Err`, or a panic terminating the process. -/
inductive Outcome (α : Type) where
  | ok (a : α)
  | err (e : String)
  | panic (p : PanicMsg)
deriving DecidableEq, Repr

/-- The bytes of an ASCII string literal, used to transcribe the string
literals of the source program. -/
def bytes (s : String) : List Nat := s.data.map Char.toNat

/-- Value of one ASCII hex digit byte, as accepted by `hex::decode` (digits,
lowercase and uppercase letters). -/
def hexVal (c : Nat) : Option Nat :=
  if 48 ≤ c ∧ c ≤ 57 then some (c - 48)
  else if 97 ≤ c ∧ c ≤ 102 then some (c - 87)
  else if 65 ≤ c ∧ c ≤ 70 then some (c - 55)
  else none

/-- Model of `hex::decode`: two hex digit bytes per output byte; fails on odd
length or on any non-hex byte. -/
def hexDecode : List Nat → Option (List Nat)
  | [] => some []
  | [_] => none
  | a :: b :: r =>
    match hexVal a, hexVal b, hexDecode r with
    | some x, some y, some l => some ((16 * x + y) :: l)
    | _, _, _ => none

/-- Lowercase hex digit byte for a value below 16, as produced by the `{:02x}`
format. -/
def hexDigit (n : Nat) : Nat := if n < 10 then 48 + n else 87 + n

/-- The two lowercase hex digit bytes of one byte, as produced by
`write!(s, "{:02x}", b)`. -/
def byteHex (b : Nat) : List Nat := [hexDigit (b / 16), hexDigit (b % 16)]

/-- Hex rendering of a byte list, two lowercase digits per byte; models the
loops that format each byte with `{:02x}` into a `String`. -/
def toHexBytes : List Nat → List Nat
  | [] => []
  | b :: r => byteHex b ++ toHexBytes r

/-- Decimal ASCII digits of a natural number, as produced by the `Display`
format of an unsigned integer. -/
def natToDecBytes (n : Nat) : List Nat :=
  if h : n < 10 then [48 + n] else natToDecBytes (n / 10) ++ [48 + n % 10]
decreasing_by exact Nat.div_lt_self (by omega) (by omega)

/-- Accumulator loop of decimal parsing: consumes ASCII digit bytes, fails on a
non-digit byte, and fails on overflow past the 64-bit range of `usize`. -/
def parseDigitsAux : List Nat → Nat → Option Nat
  | [], acc => some acc
  | b :: r, acc =>
    if 48 ≤ b ∧ b ≤ 57 then
      if acc * 10 + (b - 48) < 2 ^ 64 then parseDigitsAux r (acc * 10 + (b - 48))
      else none
    else none

/-- Model of `usize::from_str` as used by `length.parse()`: an optional leading
plus sign followed by a nonempty run of decimal digits, no overflow. -/
def parseUsize (l : List Nat) : Option Nat :=
  match l with
  | 43 :: r => if r.isEmpty then none else parseDigitsAux r 0
  | _ => if l.isEmpty then none else parseDigitsAux l 0

/-- The 20-byte digest type of the program (`struct GitHash { hash: [u8; 20] }`).
The model keeps the bytes as a list; theorems carry the length and byte-range
facts as hypotheses. -/
structure GitHash where
  hash : List Nat
deriving DecidableEq, Repr

/-- Model of `GitHash::from_str`: a 40-byte length check returning the typed
error string, then `hex::decode(s).unwrap()` (a panic on any non-hex input,
label `hexDecodeUnwrap`) and `try_into().expect(..)` (a panic when the decoded
length is not 20, label `tryIntoExpect`). -/
def GitHash.from_str (s : List Nat) : Outcome GitHash :=
  if s.length ≠ 40 then .err "Hash must be 40 characters long"
  else
    match hexDecode s with
    | none => .panic .hexDecodeUnwrap
    | some l => if l.length = 20 then .ok ⟨l⟩ else .panic .tryIntoExpect

/-- Model of the `Display` instance of `GitHash`: every byte rendered with
`{:02x}`, producing the 40-character lowercase hex form. -/
def GitHash.display (h : GitHash) : List Nat := toHexBytes h.hash

/-- Model of `GitHash::path`: `.git/objects/<2 hex chars>/<38 hex chars>`,
the first byte forming the directory component and the remaining 19 bytes the
filename component. -/
def GitHash.path (h : GitHash) : List Nat :=
  bytes ".git/objects/" ++ toHexBytes (h.hash.take 1) ++ bytes "/" ++
    toHexBytes (h.hash.drop 1)

/-- Validity of the second byte of a three-byte UTF-8 sequence, given the first
byte; the ranges are the ones used by the UTF-8 validation of the Rust standard
library (excluding overlong encodings and surrogates). -/
def utf8Second3 (b c : Nat) : Bool :=
  decide ((b = 224 ∧ 160 ≤ c ∧ c ≤ 191) ∨ (225 ≤ b ∧ b ≤ 236 ∧ 128 ≤ c ∧ c ≤ 191) ∨
    (b = 237 ∧ 128 ≤ c ∧ c ≤ 159) ∨ (238 ≤ b ∧ b ≤ 239 ∧ 128 ≤ c ∧ c ≤ 191))

/-- Validity of the second byte of a four-byte UTF-8 sequence, given the first
byte. -/
def utf8Second4 (b c : Nat) : Bool :=
  decide ((b = 240 ∧ 144 ≤ c ∧ c ≤ 191) ∨ (241 ≤ b ∧ b ≤ 243 ∧ 128 ≤ c ∧ c ≤ 191) ∨
    (b = 244 ∧ 128 ≤ c ∧ c ≤ 143))

/-- Model of `String::from_utf8_lossy` at the byte level: valid UTF-8 sequences
are copied through unchanged, and each maximal invalid subpart is replaced by
the three UTF-8 bytes `[239, 191, 189]` of the replacement character, following
the error lengths of the UTF-8 validation in the Rust standard library. -/
def utf8Lossy : List Nat → List Nat
  | [] => []
  | b :: r =>
    if b < 128 then b :: utf8Lossy r
    else if 194 ≤ b ∧ b ≤ 223 then
      match r with
      | [] => [239, 191, 189]
      | c :: r2 =>
        if 128 ≤ c ∧ c ≤ 191 then b :: c :: utf8Lossy r2
        else [239, 191, 189] ++ utf8Lossy (c :: r2)
    else if 224 ≤ b ∧ b ≤ 239 then
      match r with
      | [] => [239, 191, 189]
      | c :: r2 =>
        if utf8Second3 b c then
          match r2 with
          | [] => [239, 191, 189]
          | d :: r3 =>
            if 128 ≤ d ∧ d ≤ 191 then b :: c :: d :: utf8Lossy r3
            else [239, 191, 189] ++ utf8Lossy (d :: r3)
        else [239, 191, 189] ++ utf8Lossy (c :: r2)
    else if 240 ≤ b ∧ b ≤ 244 then
      match r with
      | [] => [239, 191, 189]
      | c :: r2 =>
        if utf8Second4 b c then
          match r2 with
          | [] => [239, 191, 189]
          | d :: r3 =>
            if 128 ≤ d ∧ d ≤ 191 then
              match r3 with
              | [] => [239, 191, 189]
              | e :: r4 =>
                if 128 ≤ e ∧ e ≤ 191 then b :: c :: d :: e :: utf8Lossy r4
                else [239, 191, 189] ++ utf8Lossy (e :: r4)
            else [239, 191, 189] ++ utf8Lossy (d :: r3)
        else [239, 191, 189] ++ utf8Lossy (c :: r2)
    else [239, 191, 189] ++ utf8Lossy r
termination_by l => l.length
decreasing_by all_goals simp +arith

/-- Model of `str::split` on the null character collected into a vector: the
segments of a byte list between its zero bytes.  Like the Rust splitter it
always yields at least one (possibly empty) segment. -/
def splitNul : List Nat → List (List Nat)
  | [] => [[]]
  | b :: r =>
    if b = 0 then [] :: splitNul r
    else
      match splitNul r with
      | s :: ss => (b :: s) :: ss
      | [] => [[b]]

/-- Model of `str::split_once` on a separator byte: `none` when the separator
does not occur, otherwise the parts strictly before and strictly after its
first occurrence. -/
def splitOnceByte (sep : Nat) : List Nat → Option (List Nat × List Nat)
  | [] => none
  | b :: r =>
    if b = sep then some ([], r)
    else
      match splitOnceByte sep r with
      | some (pre, post) => some (b :: pre, post)
      | none => none

/-- ASCII whitespace bytes removed by `str::trim` (the non-ASCII whitespace
characters are multibyte sequences that do not occur in the text this codec
produces). -/
def isAsciiWs (b : Nat) : Bool := decide (b = 32 ∨ b = 9 ∨ b = 10 ∨ b = 11 ∨ b = 12 ∨ b = 13)

/-- Model of `str::trim`: whitespace stripped from both ends. -/
def trimWs (l : List Nat) : List Nat :=
  ((l.dropWhile isAsciiWs).reverse.dropWhile isAsciiWs).reverse

/-- Model of `str::trim_end_matches(char::from(0))`: all trailing zero bytes
removed. -/
def trimEndNul (l : List Nat) : List Nat :=
  (l.reverse.dropWhile (fun b => decide (b = 0))).reverse

/-- Model of `BufRead::read_until(0, ..)` on an in-memory reader: the consumed
bytes (up to and including the first zero byte, or everything when there is
none) and the remaining bytes. -/
def readUntilNul : List Nat → List Nat × List Nat
  | [] => ([], [])
  | b :: r =>
    if b = 0 then ([0], r)
    else
      let p := readUntilNul r
      (b :: p.1, p.2)

/-- The blob object of the program: digest, declared length and content bytes
(`struct Blob`). -/
structure Blob where
  hash : GitHash
  length : Nat
  contents : List Nat
deriving DecidableEq, Repr

/-- Model of `Blob::header`: the bytes of `format!("blob {}\0", length)`. -/
def Blob.header (b : Blob) : List Nat := bytes "blob " ++ natToDecBytes b.length ++ [0]

/-- Model of `Blob::as_bytes`: header followed by the content bytes. -/
def Blob.as_bytes (b : Blob) : List Nat := b.header ++ b.contents

/-- Model of `Blob::from_contents`: the blob whose digest is the hash of its
encoded bytes `header ++ contents`.  The digest function is the external sha1
crate, passed as a parameter. -/
def Blob.from_contents (sha1 : List Nat → List Nat) (contents : List Nat) : Blob :=
  let length := contents.length
  let header := bytes "blob " ++ natToDecBytes length ++ [0]
  let store := header ++ contents
  { hash := ⟨sha1 store⟩, length := length, contents := contents }

/-- One tree entry: permission/type mode, child digest and name
(`struct TreeEntry`). -/
structure TreeEntry where
  mode : List Nat
  hash : GitHash
  name : List Nat
deriving DecidableEq, Repr

/-- One tree object: digest and ordered entries (`struct Tree`). -/
structure Tree where
  hash : GitHash
  entries : List TreeEntry
deriving DecidableEq, Repr

/-- Model of `Tree::body_from_entries`: for each entry the bytes of
`format!("{} {}\0", mode, name)` followed by the raw 20 digest bytes, which the
program pushes into the string through `from_utf8_unchecked`. -/
def Tree.body_from_entries : List TreeEntry → List Nat
  | [] => []
  | e :: r => e.mode ++ [32] ++ e.name ++ [0] ++ e.hash.hash ++ Tree.body_from_entries r

/-- Model of `Tree::contents_from_entries`: the bytes of
`format!("tree {}\0{}", body.len(), body)`. -/
def Tree.contents_from_entries (entries : List TreeEntry) : List Nat :=
  bytes "tree " ++ natToDecBytes (Tree.body_from_entries entries).length ++ [0] ++
    Tree.body_from_entries entries

/-- Model of `Tree::from_entries`: the tree whose digest is the hash of its
encoded contents. -/
def Tree.from_entries (sha1 : List Nat → List Nat) (entries : List TreeEntry) : Tree :=
  { hash := ⟨sha1 (Tree.contents_from_entries entries)⟩, entries := entries }

/-- Model of `Tree::contents`. -/
def Tree.contents (t : Tree) : List Nat := Tree.contents_from_entries t.entries

/-- Parsing of one entry description inside `Tree::from_tree_file`: the bytes
read up to a null are decoded with `from_utf8_lossy`, trimmed, split at the
first space (`unwrap` panics when there is none, label `descSplitUnwrap`), and
the trailing null bytes are stripped from both parts. -/
def parseTreeDesc (file_description : List Nat) (hash : List Nat) : Outcome TreeEntry :=
  match splitOnceByte 32 (trimWs (utf8Lossy file_description)) with
  | none => .panic .descSplitUnwrap
  | some (mode, name) =>
    .ok { mode := trimEndNul mode, hash := ⟨hash⟩, name := trimEndNul name }

/-- The entry loop of `Tree::from_tree_file`: read a description up to a null,
then unconditionally read exactly 20 raw bytes as the digest (breaking out of
the loop when fewer than 20 bytes remain, which is how `read_exact` fails),
parse the description, and stop after an entry once fewer than 20 bytes are
left in the reader. -/
def treeEntriesLoop (stream : List Nat) : Outcome (List TreeEntry) :=
  if ((readUntilNul stream).2).length < 20 then .ok []
  else
    match parseTreeDesc (readUntilNul stream).1 ((readUntilNul stream).2.take 20) with
    | .panic p => .panic p
    | .err e => .err e
    | .ok entry =>
      if ((readUntilNul stream).2.drop 20).length < 20 then .ok [entry]
      else
        match treeEntriesLoop ((readUntilNul stream).2.drop 20) with
        | .ok es => .ok (entry :: es)
        | other => other
termination_by stream.length
decreasing_by
  have h : ∀ l : List Nat, (readUntilNul l).2.length ≤ l.length := by
    intro l
    induction l with
    | nil => simp [readUntilNul]
    | cons b r ih =>
      simp only [readUntilNul]
      by_cases hb : b = 0
      · simp [hb]
      · simp [hb]; omega
  have h2 := h stream
  simp only [List.length_drop] at *
  omega

/-- Model of `Tree::from_tree_file`: the digest is the hash of the full
contents, the header is skipped by reading up to the first null, and the
entries come from the entry loop. -/
def Tree.from_tree_file (sha1 : List Nat → List Nat) (contents : List Nat) : Outcome Tree :=
  match treeEntriesLoop (readUntilNul contents).2 with
  | .ok entries => .ok { hash := ⟨sha1 contents⟩, entries := entries }
  | .err e => .err e
  | .panic p => .panic p

/-- The sum type of loadable objects (`enum GitObject`). -/
inductive GitObject where
  | blob (b : Blob)
  | tree (t : Tree)
deriving DecidableEq, Repr

/-- Whether a byte is a UTF-8 continuation byte; used by the char-boundary
check of byte-range indexing on `str`. -/
def isContByte (b : Nat) : Bool := decide (128 ≤ b ∧ b ≤ 191)

/-- Model of the byte-range indexing `&s[0..n]` on `str`: panics (label
`sliceFail`) when `n` is out of bounds or not a char boundary, otherwise the
first `n` bytes. -/
def strSliceTo (l : List Nat) (n : Nat) : Outcome (List Nat) :=
  if n ≤ l.length ∧ (n = 0 ∨ n = l.length ∨ isContByte (l.getD n 0) = false) then .ok (l.take n)
  else .panic .sliceFail

/-- The decoding part of `load_git_object_from_hash`, applied to the
decompressed bytes: lossy UTF-8 conversion of the whole buffer, split on null,
header split at the first space (`unwrap`, label `headerSplitUnwrap`), length
parse (`unwrap`, label `lengthParseUnwrap`), then dispatch on the kind token:
`blob` slices the declared length out of the second segment, `tree` hands the
whole lossy text to `Tree::from_tree_file`, and any other token hits
`panic!("Unknown object type: ..")` (label `unknownObjectType`). -/
def decodeStoredBytes (sha1 : List Nat → List Nat) (hash : GitHash) (buf : List Nat) :
    Outcome GitObject :=
  match splitNul (utf8Lossy buf) with
  | [] => .panic .indexOutOfBounds
  | first :: restSegs =>
    match splitOnceByte 32 first with
    | none => .panic .headerSplitUnwrap
    | some (tipe, lengthStr) =>
      match parseUsize lengthStr with
      | none => .panic .lengthParseUnwrap
      | some length =>
        if tipe = bytes "blob" then
          match restSegs with
          | [] => .panic .indexOutOfBounds
          | second :: _ =>
            match strSliceTo second length with
            | .ok s => .ok (.blob { hash := hash, length := length, contents := s })
            | .err e => .err e
            | .panic p => .panic p
        else if tipe = bytes "tree" then
          match Tree.from_tree_file sha1 (utf8Lossy buf) with
          | .ok t => .ok (.tree t)
          | .err e => .err e
          | .panic p => .panic p
        else .panic (.unknownObjectType tipe)

/-- Model of `load_git_object_from_hash`: `fs::read(hash.path()).unwrap()`
panics when the path has no backing file (label `fsReadUnwrap`),
`read_to_end` on the zlib decoder panics when the bytes are not a valid
compressed stream (label `zlibUnwrap`), then the decoded buffer is parsed.
The filesystem and the zlib decoder are external and passed as parameters. -/
def load_git_object_from_hash (fsRead : List Nat → Option (List Nat))
    (zlibDecompress : List Nat → Option (List Nat)) (sha1 : List Nat → List Nat)
    (hash : GitHash) : Outcome GitObject :=
  match fsRead hash.path with
  | none => .panic .fsReadUnwrap
  | some file =>
    match zlibDecompress file with
    | none => .panic .zlibUnwrap
    | some buf => decodeStoredBytes sha1 hash buf

/-- An abstract filesystem subtree for the tree builder: a file with content
bytes, or a directory with a list of named children.  The list order is
arbitrary; the enumeration order of `fs::read_dir` is modelled separately. -/
inductive Fs where
  | file (contents : List Nat)
  | dir (children : List (List Nat × Fs))

/-- Byte-wise lexicographic order on names, the order of `str::cmp` used by
the `sort_by` call of the tree builder. -/
def bytesLe : List Nat → List Nat → Bool
  | [], _ => true
  | _ :: _, [] => false
  | a :: xs, b :: ys => if a < b then true else if b < a then false else bytesLe xs ys

/-- Comparison of directory children by name, as passed to `sort_by`. -/
def entryLe (a b : List Nat × Fs) : Bool := bytesLe a.1 b.1

/-- An enumeration oracle for `fs::read_dir`: the directory entries in some
unspecified order, always a permutation of the children. -/
def DirShuffle : Type := (l : List (List Nat × Fs)) → { l2 : List (List Nat × Fs) // l2.Perm l }

/-- The enumeration oracle that keeps the stored order. -/
def idShuffle : DirShuffle := fun l => ⟨l, List.Perm.refl l⟩

/-- The enumeration oracle that reverses the stored order. -/
def revShuffle : DirShuffle := fun l => ⟨l.reverse, List.reverse_perm l⟩

/-- Model of `Tree::tree_from_directory` on the children of a directory: the
enumerated children are sorted by name, the `.git` entry is filtered out, each
remaining child yields one tree entry (mode `40000` and the digest of the
recursively built tree for a directory, mode `100644` and the digest of the
blob built from the file bytes for a file), and the tree is assembled from the
ordered entries.  Note that no object is written to the store here: the
function only builds and hashes. -/
def tree_from_directory (sha1 : List Nat → List Nat) (shuffle : DirShuffle)
    (children : List (List Nat × Fs)) : Tree :=
  let sorted := ((shuffle children).val).mergeSort entryLe
  let filtered := sorted.filter (fun e => decide (e.1 ≠ bytes ".git"))
  let entries := filtered.attach.map (fun x =>
    match x with
    | ⟨(name, Fs.dir cs), _⟩ =>
      { mode := bytes "40000", hash := (tree_from_directory sha1 shuffle cs).hash,
        name := name : TreeEntry }
    | ⟨(name, Fs.file contents), _⟩ =>
      { mode := bytes "100644", hash := (Blob.from_contents sha1 contents).hash,
        name := name : TreeEntry })
  Tree.from_entries sha1 entries
termination_by sizeOf children
decreasing_by
  rename_i hmem
  have h1 : (name, Fs.dir cs) ∈ (shuffle children).val.mergeSort entryLe :=
    List.mem_of_mem_filter hmem
  rw [List.mem_mergeSort] at h1
  have h2 : (name, Fs.dir cs) ∈ children := ((shuffle children).property.mem_iff).mp h1
  have h3 := List.sizeOf_lt_of_mem h2
  simp at h3
  omega

mutual

/-- Whether every directory level of a subtree has pairwise distinct child
names; real directories always satisfy this. -/
def fsNodup : Fs → Bool
  | .file _ => true
  | .dir cs => decide ((cs.map Prod.fst).Nodup) && fsNodupChildren cs

/-- Conjunction of `fsNodup` over a list of named children. -/
def fsNodupChildren : List (List Nat × Fs) → Bool
  | [] => true
  | (_, c) :: r => fsNodup c && fsNodupChildren r

end

/-- Model of `git_write_tree`: builds the tree of the working directory, then
writes exactly one object, the root tree, keyed by its digest.  The write
log records the encoded object contents handed to the zlib compressor at the
store boundary; the compression wrapper itself is external and inert. -/
def git_write_tree (sha1 : List Nat → List Nat) (shuffle : DirShuffle)
    (children : List (List Nat × Fs)) : Tree × List (GitHash × List Nat) :=
  let tree := tree_from_directory sha1 shuffle children
  (tree, [(tree.hash, tree.contents)])

/-- The `commit-tree` argument record (`struct CommitTreeArgs`): the tree
digest and the parent digest are both mandatory `GitHash` fields, and the
message is text. -/
structure CommitTreeArgs where
  tree : GitHash
  parent : GitHash
  message : List Nat
deriving DecidableEq, Repr

/-- The commit payload built by `git_commit_tree`.  The timestamp is
`Instant::now().elapsed().as_secs()`: the whole seconds of the time elapsed
between creating an `Instant` and immediately querying it, modelled as the
elapsed nanoseconds divided by `10 ^ 9`.  The author and committer identity is
the hard-coded string `Harry Smith <test@test.org>`, and the payload is
`format!("tree {}\nparent {}\nauthor {}\ncommitter {}\n\n{}\n", ..)`. -/
def git_commit_tree_contents (elapsedNanos : Nat) (args : CommitTreeArgs) : List Nat :=
  let unix_timestamp := elapsedNanos / 1000000000
  let author := bytes "Harry Smith" ++ bytes " <" ++ bytes "test@test.org" ++ bytes "> " ++
    natToDecBytes unix_timestamp ++ [32] ++ bytes "+0000"
  bytes "tree " ++ args.tree.display ++ [10] ++
    bytes "parent " ++ args.parent.display ++ [10] ++
    bytes "author " ++ author ++ [10] ++
    bytes "committer " ++ author ++ [10] ++ [10] ++
    args.message ++ [10]

/-- Model of `git_commit_tree`: the digest is the hash of the payload alone,
the header is `format!("commit {}\0", contents.len())`, and the stored object
is header followed by payload (compressed at the store boundary). -/
def git_commit_tree (sha1 : List Nat → List Nat) (elapsedNanos : Nat) (args : CommitTreeArgs) :
    GitHash × List Nat × List Nat :=
  let contents := git_commit_tree_contents elapsedNanos args
  (⟨sha1 contents⟩, contents,
    bytes "commit " ++ natToDecBytes contents.length ++ [0] ++ contents)

/-- A tree entry whose mode is nonempty printable ASCII without spaces, whose
name is printable ASCII, and whose digest has the fixed width of 20 bytes; the
entries the tree builder itself produces are of this shape. -/
def goodEntry (e : TreeEntry) : Prop :=
  e.mode ≠ [] ∧ (∀ b ∈ e.mode, 33 ≤ b ∧ b ≤ 126) ∧
    (∀ b ∈ e.name, 32 ≤ b ∧ b ≤ 126) ∧ e.hash.hash.length = 20

instance (e : TreeEntry) : Decidable (goodEntry e) := by
  unfold goodEntry; infer_instance

/-- Whether a decode outcome is the `panic!("Unknown object type: ..")` panic. -/
def isUnknownKindPanic : Outcome GitObject → Bool
  | .panic (.unknownObjectType _) => true
  | _ => false

/-- Whether a byte is a lowercase hex digit byte. -/
def isLowerHexByte (b : Nat) : Bool := decide ((48 ≤ b ∧ b ≤ 57) ∨ (97 ≤ b ∧ b ≤ 102))

/-!
### Helper lemmas about the decimal and hex renderings
-/

theorem natToDecBytes_digits (n : Nat) : ∀ b ∈ natToDecBytes n, 48 ≤ b ∧ b ≤ 57 := by
  induction n using Nat.strong_induction_on with
  | _ n ih =>
    rw [natToDecBytes]
    split
    · intro b hb; simp at hb; omega
    · intro b hb
      rw [List.mem_append] at hb
      rcases hb with hb | hb
      · exact ih (n / 10) (Nat.div_lt_self (by omega) (by omega)) b hb
      · simp at hb; omega

theorem natToDecBytes_ne_nil (n : Nat) : natToDecBytes n ≠ [] := by
  rw [natToDecBytes]
  split
  · simp
  · simp

theorem parseDigitsAux_append (l1 l2 : List Nat) (acc : Nat) :
    parseDigitsAux (l1 ++ l2) acc =
      match parseDigitsAux l1 acc with
      | some a => parseDigitsAux l2 a
      | none => none := by
  induction l1 generalizing acc with
  | nil => simp [parseDigitsAux]
  | cons b t ih =>
    simp only [List.cons_append, parseDigitsAux]
    split
    · split
      · exact ih _
      · rfl
    · rfl

theorem parseDigitsAux_natToDec (n : Nat) : ∀ acc : Nat,
    acc * 10 ^ (natToDecBytes n).length + n < 2 ^ 64 →
    parseDigitsAux (natToDecBytes n) acc =
      some (acc * 10 ^ (natToDecBytes n).length + n) := by
  induction n using Nat.strong_induction_on with
  | _ n ih =>
    intro acc hlt
    by_cases h10 : n < 10
    · have he : natToDecBytes n = [48 + n] := by rw [natToDecBytes]; simp [h10]
      rw [he] at hlt ⊢
      simp only [List.length_cons, List.length_nil, pow_one, zero_add, pow_succ, pow_zero,
        one_mul] at hlt ⊢
      have hd : 48 ≤ 48 + n ∧ 48 + n ≤ 57 := by omega
      simp [parseDigitsAux, hd, Nat.add_sub_cancel_left]
      omega
    · have he : natToDecBytes n = natToDecBytes (n / 10) ++ [48 + n % 10] := by
        rw [natToDecBytes]; simp [h10]
      have hdm := Nat.div_add_mod n 10
      have hlen : (natToDecBytes n).length = (natToDecBytes (n / 10)).length + 1 := by
        rw [he]; simp
      have hpow : (10 : Nat) ^ ((natToDecBytes (n / 10)).length + 1) =
          10 ^ (natToDecBytes (n / 10)).length * 10 := by rw [pow_succ]
      have hA : (acc * 10 ^ (natToDecBytes (n / 10)).length + n / 10) * 10 + n % 10 =
          acc * 10 ^ ((natToDecBytes (n / 10)).length + 1) + n := by
        rw [hpow, Nat.add_mul, Nat.mul_assoc]
        omega
      have hlt2 : acc * 10 ^ ((natToDecBytes (n / 10)).length + 1) + n < 2 ^ 64 := by
        rw [← hlen]; exact hlt
      have hih : acc * 10 ^ (natToDecBytes (n / 10)).length + n / 10 < 2 ^ 64 := by
        have h10le : 10 * (acc * 10 ^ (natToDecBytes (n / 10)).length + n / 10) ≤
            acc * 10 ^ ((natToDecBytes (n / 10)).length + 1) + n := by
          rw [hpow, Nat.mul_add, Nat.mul_comm 10 (acc * 10 ^ (natToDecBytes (n / 10)).length),
            Nat.mul_assoc]
          omega
        omega
      have h1 := ih (n / 10) (Nat.div_lt_self (by omega) (by omega)) acc hih
      have hlen2 : (natToDecBytes (n / 10) ++ [48 + n % 10]).length =
          (natToDecBytes (n / 10)).length + 1 := by simp
      rw [he, parseDigitsAux_append, h1, hlen2]
      show parseDigitsAux [48 + n % 10]
          (acc * 10 ^ (natToDecBytes (n / 10)).length + n / 10) = _
      have hd : 48 ≤ 48 + n % 10 ∧ 48 + n % 10 ≤ 57 := by omega
      simp only [parseDigitsAux, hd, and_self, if_true, Nat.add_sub_cancel_left, hA]
      rw [if_pos (by omega)]

theorem parseUsize_natToDec (n : Nat) (h : n < 2 ^ 64) :
    parseUsize (natToDecBytes n) = some n := by
  have hd := natToDecBytes_digits n
  have hne := natToDecBytes_ne_nil n
  have hmain := parseDigitsAux_natToDec n 0 (by simpa using h)
  simp only [Nat.zero_mul, Nat.zero_add] at hmain
  obtain ⟨b, t, he⟩ : ∃ b t, natToDecBytes n = b :: t := by
    cases hc : natToDecBytes n with
    | nil => exact absurd hc hne
    | cons b t => exact ⟨b, t, rfl⟩
  have hb : 48 ≤ b := (hd b (by rw [he]; exact List.mem_cons_self _ _)).1
  rw [he] at hmain ⊢
  unfold parseUsize
  split
  · rename_i r heq
    injection heq with h1 h2
    omega
  · simp [hmain]

theorem hexVal_hexDigit : ∀ n : Nat, n < 16 → hexVal (hexDigit n) = some n := by decide

theorem hexDigit_lower : ∀ n : Nat, n < 16 → isLowerHexByte (hexDigit n) = true := by decide

theorem toHexBytes_length (l : List Nat) : (toHexBytes l).length = 2 * l.length := by
  induction l with
  | nil => simp [toHexBytes]
  | cons b r ih => simp [toHexBytes, byteHex, ih]; omega

theorem toHexBytes_lower (l : List Nat) (h : ∀ b ∈ l, b < 256) :
    ∀ c ∈ toHexBytes l, isLowerHexByte c = true := by
  induction l with
  | nil => simp [toHexBytes]
  | cons b r ih =>
    intro c hc
    have hb := h b (List.mem_cons_self _ _)
    simp only [toHexBytes, byteHex, List.cons_append, List.mem_cons] at hc
    rcases hc with hc | hc | hc
    · subst hc; exact hexDigit_lower _ (by omega)
    · subst hc; exact hexDigit_lower _ (by omega)
    · exact ih (fun x hx => h x (List.mem_cons_of_mem _ hx)) c (by simpa using hc)

theorem hexDecode_toHexBytes (l : List Nat) (h : ∀ b ∈ l, b < 256) :
    hexDecode (toHexBytes l) = some l := by
  induction l with
  | nil => simp [toHexBytes, hexDecode]
  | cons b r ih =>
    have hb := h b (List.mem_cons_self _ _)
    have h1 : hexVal (hexDigit (b / 16)) = some (b / 16) := hexVal_hexDigit _ (by omega)
    have h2 : hexVal (hexDigit (b % 16)) = some (b % 16) := hexVal_hexDigit _ (by omega)
    have h3 := ih (fun x hx => h x (List.mem_cons_of_mem _ hx))
    have hsplit : toHexBytes (b :: r) = hexDigit (b / 16) :: hexDigit (b % 16) :: toHexBytes r :=
      rfl
    rw [hsplit]
    simp only [hexDecode, h1, h2, h3]
    have : 16 * (b / 16) + b % 16 = b := by omega
    rw [this]

theorem hexDecode_all_hex (s : List Nat) : s.length % 2 = 0 → (∀ b ∈ s, (hexVal b).isSome) →
    ∃ l, hexDecode s = some l ∧ s.length = 2 * l.length := by
  induction s using hexDecode.induct with
  | case1 => intro _ _; exact ⟨[], rfl, rfl⟩
  | case2 a => intro hlen _; simp at hlen
  | case3 a b r x y l hr hb ha ih =>
    intro hlen hhex
    obtain ⟨l2, hl2, hll⟩ := ih (by simp at hlen ⊢; omega)
      (fun c hc => hhex c (by simp [hc]))
    refine ⟨(16 * x + y) :: l2, ?_, ?_⟩
    · rw [hl2] at hr
      injection hr with hr2
      subst hr2
      simp only [hexDecode, ha, hb, hl2]
    · simp at hll ⊢; omega
  | case4 a b r hfail ih =>
    intro hlen hhex
    obtain ⟨x, hx⟩ := Option.isSome_iff_exists.mp (hhex a (by simp))
    obtain ⟨y, hy⟩ := Option.isSome_iff_exists.mp (hhex b (by simp))
    obtain ⟨l2, hl2, _⟩ := ih (by simp at hlen ⊢; omega)
      (fun c hc => hhex c (by simp [hc]))
    exact absurd (hfail x y l2 hx hy hl2) (fun h => h)

theorem hexDecode_none_of_bad (s : List Nat) : (∃ b ∈ s, hexVal b = none) →
    hexDecode s = none := by
  induction s using hexDecode.induct with
  | case1 => intro h; simp at h
  | case2 a => intro _; rfl
  | case3 a b r x y l hr hb ha ih =>
    intro hbad
    rcases hbad with ⟨c, hc, hcn⟩
    rcases List.mem_cons.mp hc with h1 | hc2
    · subst h1; rw [hcn] at ha; exact absurd ha (by simp)
    · rcases List.mem_cons.mp hc2 with h2 | hc3
      · subst h2; rw [hcn] at hb; exact absurd hb (by simp)
      · have := ih ⟨c, hc3, hcn⟩
        rw [this] at hr
        exact absurd hr (by simp)
  | case4 a b r hfail ih =>
    intro _
    cases ha : hexVal a with
    | none => simp [hexDecode, ha]
    | some x =>
      cases hb : hexVal b with
      | none => simp [hexDecode, ha, hb]
      | some y =>
        cases hr : hexDecode r with
        | none => simp [hexDecode, ha, hb, hr]
        | some l => exact absurd (hfail x y l ha hb hr) (fun h => h)

/-!
### Claim C9: hex round trip of digests
-/

/-- Claim C9 (confirmed): for every 20-byte digest, the hex rendering always
succeeds, is a lowercase string of exactly 40 characters, and parsing it back
through `GitHash::from_str` yields the same digest. -/
theorem C9_thm (l : List Nat) (h1 : l.length = 20) (h2 : ∀ b ∈ l, b < 256) :
    (GitHash.display ⟨l⟩).length = 40 ∧
      (∀ c ∈ GitHash.display ⟨l⟩, isLowerHexByte c = true) ∧
      GitHash.from_str (GitHash.display ⟨l⟩) = .ok ⟨l⟩ := by
  have hlen : (GitHash.display ⟨l⟩).length = 40 := by
    simp [GitHash.display, toHexBytes_length, h1]
  refine ⟨hlen, toHexBytes_lower l h2, ?_⟩
  simp [GitHash.from_str, GitHash.display, toHexBytes_length, hexDecode_toHexBytes l h2, h1]

/-- Witness for C9 at a concrete digest. -/
theorem C9_wit :
    (GitHash.display ⟨List.replicate 20 171⟩).length = 40 ∧
      (∀ c ∈ GitHash.display ⟨List.replicate 20 171⟩, isLowerHexByte c = true) ∧
      GitHash.from_str (GitHash.display ⟨List.replicate 20 171⟩) = .ok ⟨List.replicate 20 171⟩ :=
  C9_thm (List.replicate 20 171) (by decide) (by decide)

/-!
### Claim C8: digest parsing
-/

/-- Counterexample for claim C8 as stated: a 40-character input made of the
non-hex letter `z` does not produce a returned `MalformedDigest`/ typed error;
`hex::decode(..).unwrap()` panics, terminating the process. -/
theorem C8_cx : GitHash.from_str (List.replicate 40 122) = .panic .hexDecodeUnwrap := by decide

/-- Claim C8 as amended: an input whose byte length is not 40 fails with the
returned typed error; an input of exactly 40 hex characters parses
successfully; an input of length 40 containing any non-hex character makes the
parser panic (process termination), not return a typed error. -/
theorem C8_thm (s : List Nat) :
    (s.length ≠ 40 → GitHash.from_str s = .err "Hash must be 40 characters long") ∧
      (s.length = 40 → (∀ b ∈ s, (hexVal b).isSome) → ∃ l, GitHash.from_str s = .ok ⟨l⟩) ∧
      (s.length = 40 → (∃ b ∈ s, hexVal b = none) →
        GitHash.from_str s = .panic .hexDecodeUnwrap) := by
  refine ⟨?_, ?_, ?_⟩
  · intro hne; simp [GitHash.from_str, hne]
  · intro hlen hhex
    obtain ⟨l, hl, hll⟩ := hexDecode_all_hex s (by omega) hhex
    refine ⟨l, ?_⟩
    have h20 : l.length = 20 := by omega
    simp [GitHash.from_str, hlen, hl, h20]
  · intro hlen hbad
    have := hexDecode_none_of_bad s hbad
    simp [GitHash.from_str, hlen, this]

/-- Witness for C8 at concrete inputs, one per branch. -/
theorem C8_wit :
    GitHash.from_str (bytes "abc") = .err "Hash must be 40 characters long" ∧
      (∃ l, GitHash.from_str (List.replicate 40 97) = .ok ⟨l⟩) ∧
      GitHash.from_str (97 :: List.replicate 39 33) = .panic .hexDecodeUnwrap :=
  ⟨(C8_thm (bytes "abc")).1 (by decide),
    (C8_thm (List.replicate 40 97)).2.1 (by decide) (by decide),
    (C8_thm (97 :: List.replicate 39 33)).2.2 (by decide) (by decide)⟩

/-!
### Claim C4: commit payload shape
-/

unseal natToDecBytes in
/-- Counterexample for claim C4 as stated: the commit builder has no
parent-free form (the `parent` field of `CommitTreeArgs` is mandatory), and
the payload always contains a `parent ` line; here at a concrete invocation. -/
theorem C4_cx :
    bytes "parent " <:+:
      git_commit_tree_contents 0
        { tree := ⟨List.replicate 20 0⟩, parent := ⟨List.replicate 20 0⟩,
          message := bytes "init" } := by
  decide

/-- Claim C4 as amended: commit creation requires a parent digest, and every
payload starts with the tree line, contains a `parent ` line, and ends with
the message followed by a newline. -/
theorem C4_thm (elapsedNanos : Nat) (args : CommitTreeArgs) :
    (bytes "tree " ++ args.tree.display ++ [10]) <+:
        git_commit_tree_contents elapsedNanos args ∧
      bytes "parent " <:+: git_commit_tree_contents elapsedNanos args ∧
      (args.message ++ [10]) <:+ git_commit_tree_contents elapsedNanos args := by
  obtain ⟨mid, hs⟩ : ∃ mid : List Nat, git_commit_tree_contents elapsedNanos args =
      (bytes "tree " ++ args.tree.display ++ [10]) ++
        ((bytes "parent " ++ mid) ++ (args.message ++ [10])) := by
    refine ⟨args.parent.display ++ [10] ++ bytes "author " ++
      (bytes "Harry Smith" ++ bytes " <" ++ bytes "test@test.org" ++ bytes "> " ++
        natToDecBytes (elapsedNanos / 1000000000) ++ [32] ++ bytes "+0000") ++ [10] ++
      bytes "committer " ++
      (bytes "Harry Smith" ++ bytes " <" ++ bytes "test@test.org" ++ bytes "> " ++
        natToDecBytes (elapsedNanos / 1000000000) ++ [32] ++ bytes "+0000") ++ [10] ++ [10], ?_⟩
    simp [git_commit_tree_contents, List.append_assoc]
  rw [hs]
  refine ⟨⟨(bytes "parent " ++ mid) ++ (args.message ++ [10]), rfl⟩, ?_, ?_⟩
  · exact ⟨bytes "tree " ++ args.tree.display ++ [10], mid ++ (args.message ++ [10]),
      by simp [List.append_assoc]⟩
  · exact ⟨(bytes "tree " ++ args.tree.display ++ [10]) ++ (bytes "parent " ++ mid),
      by simp [List.append_assoc]⟩

/-!
### Claim C10: commit determinism
-/

/-- Claim C10 (confirmed): with the hard-coded identity and the elapsed-time
timestamp (zero whole seconds whenever the elapsed interval is below one
second, which holds at the moment it is sampled), the commit payload, digest
and stored bytes are a function of the tree digest, parent digest and message
alone: two invocations with identical arguments agree. -/
theorem C10_thm (sha1 : List Nat → List Nat) (d1 d2 : Nat) (args : CommitTreeArgs)
    (h1 : d1 < 1000000000) (h2 : d2 < 1000000000) :
    git_commit_tree sha1 d1 args = git_commit_tree sha1 d2 args := by
  have e1 : d1 / 1000000000 = 0 := Nat.div_eq_of_lt h1
  have e2 : d2 / 1000000000 = 0 := Nat.div_eq_of_lt h2
  simp [git_commit_tree, git_commit_tree_contents, e1, e2]

/-- Witness for C10 at two concrete sub-second elapsed intervals. -/
theorem C10_wit :
    git_commit_tree (fun _ => []) 5 { tree := ⟨[]⟩, parent := ⟨[]⟩, message := [] } =
      git_commit_tree (fun _ => []) 999999999 { tree := ⟨[]⟩, parent := ⟨[]⟩, message := [] } :=
  C10_thm (fun _ => []) 5 999999999 _ (by decide) (by decide)

/-!
### Claim C1: persistence during the tree build
-/

/-- Claim C1 (code bug): building a directory with a single file child and
writing the tree writes exactly one object, the root tree; no write carries
the encoded blob of the file child, although the claim requires every child
blob and subtree to be written to the store before the parent is assembled. -/
theorem C1_thm (sha1 : List Nat → List Nat) :
    (git_write_tree sha1 idShuffle [(bytes "a.txt", Fs.file (bytes "x"))]).2.length = 1 ∧
      ∀ w ∈ (git_write_tree sha1 idShuffle [(bytes "a.txt", Fs.file (bytes "x"))]).2,
        w.2 ≠ (Blob.from_contents sha1 (bytes "x")).as_bytes := by
  refine ⟨rfl, ?_⟩
  intro w hw
  have hb1 : bytes "tree " = 116 :: [114, 101, 101, 32] := rfl
  have hb2 : bytes "blob " = 98 :: [108, 111, 98, 32] := rfl
  simp only [git_write_tree, List.mem_singleton] at hw
  subst hw
  simp only [Tree.contents, Tree.contents_from_entries, Blob.as_bytes, Blob.header,
    Blob.from_contents, hb1, hb2, List.cons_append]
  simp

/-- Witness for C1: the single write of the concrete one-file build is not
the encoded blob. -/
theorem C1_wit :
    (git_write_tree (fun _ => List.replicate 20 0) idShuffle
        [(bytes "a.txt", Fs.file (bytes "x"))]).2.length = 1 ∧
      ((git_write_tree (fun _ => List.replicate 20 0) idShuffle
            [(bytes "a.txt", Fs.file (bytes "x"))]).1.hash,
          (git_write_tree (fun _ => List.replicate 20 0) idShuffle
            [(bytes "a.txt", Fs.file (bytes "x"))]).1.contents).2 ≠
        (Blob.from_contents (fun _ => List.replicate 20 0) (bytes "x")).as_bytes :=
  ⟨(C1_thm (fun _ => List.replicate 20 0)).1,
    (C1_thm (fun _ => List.replicate 20 0)).2 _ (List.mem_singleton.mpr rfl)⟩

/-!
### Claim C6: object store read failures
-/

/-- Counterexample for claim C6 as stated: reading a digest with no backing
file does not return a typed `ObjectNotFound` failure; the `unwrap` on
`fs::read` panics, terminating the process. -/
theorem C6_cx :
    load_git_object_from_hash (fun _ => none) (fun _ => none) (fun _ => [])
        ⟨List.replicate 20 0⟩ = .panic .fsReadUnwrap := rfl

/-- Claim C6 as amended: when the storage path has no backing file the read
panics at the `fs::read` unwrap (process termination, not a typed failure),
and when the stored bytes are not a valid compressed stream the read panics at
the zlib `read_to_end` unwrap. -/
theorem C6_thm (fsRead zlib : List Nat → Option (List Nat)) (sha1 : List Nat → List Nat)
    (h : GitHash) :
    (fsRead h.path = none →
        load_git_object_from_hash fsRead zlib sha1 h = .panic .fsReadUnwrap) ∧
      (∀ file, fsRead h.path = some file → zlib file = none →
        load_git_object_from_hash fsRead zlib sha1 h = .panic .zlibUnwrap) := by
  constructor
  · intro hf; simp [load_git_object_from_hash, hf]
  · intro file hf hz; simp [load_git_object_from_hash, hf, hz]

/-- Witness for C6: a missing file and an undecompressible file, concretely. -/
theorem C6_wit :
    load_git_object_from_hash (fun _ => none) (fun _ => none) (fun _ => []) ⟨[]⟩ =
        .panic .fsReadUnwrap ∧
      load_git_object_from_hash (fun _ => some [1]) (fun _ => none) (fun _ => []) ⟨[]⟩ =
        .panic .zlibUnwrap :=
  ⟨(C6_thm (fun _ => none) (fun _ => none) (fun _ => []) ⟨[]⟩).1 rfl,
    (C6_thm (fun _ => some [1]) (fun _ => none) (fun _ => []) ⟨[]⟩).2 [1] rfl rfl⟩

/-!
### Helper lemmas about the byte-stream primitives
-/

theorem utf8Lossy_nil : utf8Lossy [] = [] := by simp [utf8Lossy.eq_def]

theorem utf8Lossy_ascii_append (a r : List Nat) (h : ∀ b ∈ a, b < 128) :
    utf8Lossy (a ++ r) = a ++ utf8Lossy r := by
  induction a with
  | nil => simp
  | cons b t ih =>
    have hb : b < 128 := h b (List.mem_cons_self _ _)
    rw [List.cons_append, utf8Lossy.eq_def]
    simp [hb, ih (fun x hx => h x (List.mem_cons_of_mem _ hx))]

theorem utf8Lossy_ascii (l : List Nat) (h : ∀ b ∈ l, b < 128) : utf8Lossy l = l := by
  have h2 := utf8Lossy_ascii_append l [] h
  simpa [utf8Lossy_nil] using h2

theorem splitNul_ne_nil (l : List Nat) : splitNul l ≠ [] := by
  induction l with
  | nil => simp [splitNul]
  | cons b r ih =>
    simp only [splitNul]
    split
    · simp
    · rcases hc : splitNul r with _ | ⟨s, ss⟩ <;> simp [hc]

theorem splitNul_append (a r : List Nat) (h : ¬ 0 ∈ a) :
    splitNul (a ++ 0 :: r) = a :: splitNul r := by
  induction a with
  | nil => simp [splitNul]
  | cons b t ih =>
    have hb : ¬ b = 0 := by
      intro e; exact h (by simp [e])
    rw [List.cons_append, splitNul, if_neg hb,
      ih (fun hx => h (List.mem_cons_of_mem _ hx))]

theorem splitNul_no_nul (l : List Nat) (h : ¬ 0 ∈ l) : splitNul l = [l] := by
  induction l with
  | nil => rfl
  | cons b t ih =>
    have hb : ¬ b = 0 := by
      intro e; exact h (by simp [e])
    rw [splitNul, if_neg hb, ih (fun hx => h (List.mem_cons_of_mem _ hx))]

theorem splitOnceByte_append (sep : Nat) (a r : List Nat) (h : ¬ sep ∈ a) :
    splitOnceByte sep (a ++ sep :: r) = some (a, r) := by
  induction a with
  | nil => simp [splitOnceByte]
  | cons b t ih =>
    have hb : ¬ b = sep := by
      intro e; exact h (by simp [e])
    rw [List.cons_append, splitOnceByte, if_neg hb,
      ih (fun hx => h (List.mem_cons_of_mem _ hx))]

theorem splitOnceByte_no_sep (sep : Nat) (l : List Nat) (h : ¬ sep ∈ l) :
    splitOnceByte sep l = none := by
  induction l with
  | nil => rfl
  | cons b t ih =>
    have hb : ¬ b = sep := by
      intro e; exact h (by simp [e])
    rw [splitOnceByte, if_neg hb, ih (fun hx => h (List.mem_cons_of_mem _ hx))]

theorem trimWs_keep (b : Nat) (m : List Nat) (hb : isAsciiWs b = false) :
    trimWs (b :: (m ++ [0])) = b :: (m ++ [0]) := by
  have h0 : isAsciiWs 0 = false := rfl
  have h1 : List.dropWhile isAsciiWs (b :: (m ++ [0])) = b :: (m ++ [0]) := by
    rw [List.dropWhile_cons]
    simp [hb]
  have h2 : (b :: (m ++ [0])).reverse = 0 :: (m.reverse ++ [b]) := by simp
  have h3 : List.dropWhile isAsciiWs (0 :: (m.reverse ++ [b])) = 0 :: (m.reverse ++ [b]) := by
    rw [List.dropWhile_cons]
    simp [h0]
  unfold trimWs
  rw [h1, h2, h3, ← h2, List.reverse_reverse]

theorem trimEndNul_append_nul (x : List Nat) : trimEndNul (x ++ [0]) = trimEndNul x := by
  unfold trimEndNul
  simp [List.dropWhile_cons]

theorem trimEndNul_no_nul (x : List Nat) (h : ¬ 0 ∈ x) : trimEndNul x = x := by
  unfold trimEndNul
  rcases hx : x.reverse with _ | ⟨b, t⟩
  · have hx2 : x = [] := by
      have := congrArg List.reverse hx
      simpa using this
    simp [hx2]
  · have hbx : b ∈ x := by
      have hb2 : b ∈ x.reverse := by rw [hx]; exact List.mem_cons_self _ _
      simpa using hb2
    have hb : decide (b = 0) = false := by
      simp only [decide_eq_false_iff_not]
      exact fun e => h (e ▸ hbx)
    rw [List.dropWhile_cons, hb]
    simp only [Bool.false_eq_true, if_false]
    have h4 := congrArg List.reverse hx
    simpa using h4.symm

theorem readUntilNul_append (a r : List Nat) (h : ¬ 0 ∈ a) :
    readUntilNul (a ++ 0 :: r) = (a ++ [0], r) := by
  induction a with
  | nil => simp [readUntilNul]
  | cons b t ih =>
    have hb : ¬ b = 0 := by
      intro e; exact h (by simp [e])
    rw [List.cons_append, readUntilNul]
    simp [hb, ih (fun hx => h (List.mem_cons_of_mem _ hx))]

theorem readUntilNul_no_nul (l : List Nat) (h : ¬ 0 ∈ l) : readUntilNul l = (l, []) := by
  induction l with
  | nil => rfl
  | cons b t ih =>
    have hb : ¬ b = 0 := by
      intro e; exact h (by simp [e])
    rw [readUntilNul]
    simp [hb, ih (fun hx => h (List.mem_cons_of_mem _ hx))]

/-!
### Reduction of the stored-object decoder on a well-formed header
-/

theorem strSliceTo_full (l : List Nat) : strSliceTo l l.length = .ok l := by
  unfold strSliceTo
  rw [if_pos ⟨Nat.le_refl _, Or.inr (Or.inl rfl)⟩, List.take_length]

theorem strSliceTo_cases (l : List Nat) (n : Nat) :
    strSliceTo l n = .ok (l.take n) ∨ strSliceTo l n = .panic .sliceFail := by
  unfold strSliceTo
  split
  · exact Or.inl rfl
  · exact Or.inr rfl

theorem decodeStoredBytes_header (sha1 : List Nat → List Nat) (h : GitHash) (k : List Nat)
    (n : Nat) (rest : List Nat) (hkb : ∀ b ∈ k, 33 ≤ b ∧ b ≤ 126)
    (hn : n < 2 ^ 64) :
    decodeStoredBytes sha1 h (k ++ [32] ++ natToDecBytes n ++ [0] ++ rest) =
      if k = bytes "blob" then
        match splitNul (utf8Lossy rest) with
        | [] => .panic .indexOutOfBounds
        | second :: _ =>
          match strSliceTo second n with
          | .ok s => .ok (.blob { hash := h, length := n, contents := s })
          | .err e => .err e
          | .panic p => .panic p
      else if k = bytes "tree" then
        match Tree.from_tree_file sha1
            ((k ++ [32] ++ natToDecBytes n) ++ 0 :: utf8Lossy rest) with
        | .ok t => .ok (.tree t)
        | .err e => .err e
        | .panic p => .panic p
      else .panic (.unknownObjectType k) := by
  have hdig := natToDecBytes_digits n
  have hascii : ∀ b ∈ ((k ++ [32]) ++ natToDecBytes n) ++ [0], b < 128 := by
    intro b hb
    simp only [List.mem_append, List.mem_singleton] at hb
    rcases hb with ((hb | hb) | hb) | hb
    · have := hkb b hb; omega
    · omega
    · have := hdig b hb; omega
    · omega
  have hlossy := utf8Lossy_ascii_append (((k ++ [32]) ++ natToDecBytes n) ++ [0]) rest hascii
  have h0 : ¬ (0 : Nat) ∈ (k ++ [32]) ++ natToDecBytes n := by
    intro hm
    simp only [List.mem_append, List.mem_singleton] at hm
    rcases hm with (hm | hm) | hm
    · have := hkb 0 hm; omega
    · simp at hm
    · have := hdig 0 hm; omega
  have hsp : (((k ++ [32]) ++ natToDecBytes n) ++ [0]) ++ utf8Lossy rest =
      ((k ++ [32]) ++ natToDecBytes n) ++ 0 :: utf8Lossy rest := by
    simp
  have h32k : ¬ (32 : Nat) ∈ k := by
    intro hm
    have := hkb 32 hm; omega
  have hks : (k ++ [32]) ++ natToDecBytes n = k ++ 32 :: natToDecBytes n := by simp
  have hsplit1 : splitOnceByte 32 ((k ++ [32]) ++ natToDecBytes n) =
      some (k, natToDecBytes n) := by
    rw [hks]; exact splitOnceByte_append 32 k _ h32k
  unfold decodeStoredBytes
  simp only [hlossy, hsp, splitNul_append _ _ h0, hsplit1, parseUsize_natToDec n hn]

/-!
### Claim C2: codec round trip
-/

unseal natToDecBytes utf8Lossy in
/-- Counterexample for claim C2 as stated: the decoder recognizes only the
kinds blob and tree, so decoding the canonical encoding of a commit payload
panics at the unknown-kind arm instead of yielding the pair back; and a blob
whose payload contains a null byte is truncated by the text split, so its
slice panics. -/
theorem C2_cx :
    decodeStoredBytes (fun _ => List.replicate 20 0) ⟨List.replicate 20 0⟩
        (bytes "commit 1" ++ [0] ++ bytes "x") =
      .panic (.unknownObjectType (bytes "commit")) ∧
      decodeStoredBytes (fun _ => List.replicate 20 0) ⟨List.replicate 20 0⟩
        (bytes "blob 1" ++ [0] ++ [0]) = .panic .sliceFail := by
  constructor <;> decide

/-- Claim C2 as amended: the round trip holds for kind blob whenever the
payload is ASCII (all bytes below 128), free of null bytes, and of length
below `2 ^ 64`: decoding the canonical blob encoding yields a blob object
carrying exactly the payload and its length.  Kinds tree and commit do not
round-trip in general: a commit encoding panics at the unknown-kind arm, and a
tree payload survives only when its digest bytes survive the lossy text
conversion. -/
theorem C2_thm (sha1 : List Nat → List Nat) (h : GitHash) (p : List Nat)
    (hp : ∀ b ∈ p, b < 128 ∧ b ≠ 0) (hlen : p.length < 2 ^ 64) :
    decodeStoredBytes sha1 h ((Blob.from_contents sha1 p).as_bytes) =
      .ok (.blob { hash := h, length := p.length, contents := p }) := by
  have hshape : (Blob.from_contents sha1 p).as_bytes =
      bytes "blob" ++ [32] ++ natToDecBytes p.length ++ [0] ++ p := rfl
  rw [hshape,
    decodeStoredBytes_header sha1 h (bytes "blob") p.length p (by decide) hlen,
    if_pos rfl]
  simp only [utf8Lossy_ascii p (fun b hb => (hp b hb).1),
    splitNul_no_nul p (fun hm => (hp 0 hm).2 rfl), strSliceTo_full]

/-- Witness for C2 at a concrete ASCII payload. -/
theorem C2_wit :
    decodeStoredBytes (fun _ => List.replicate 20 0) ⟨List.replicate 20 0⟩
        ((Blob.from_contents (fun _ => List.replicate 20 0) (bytes "hi")).as_bytes) =
      .ok (.blob
        { hash := ⟨List.replicate 20 0⟩, length := (bytes "hi").length,
          contents := bytes "hi" }) :=
  C2_thm (fun _ => List.replicate 20 0) ⟨List.replicate 20 0⟩ (bytes "hi")
    (by decide) (by decide)

/-!
### Claim C5: the unknown-kind failure arm
-/

theorem readUntilNul_snd_le (l : List Nat) : (readUntilNul l).2.length ≤ l.length := by
  induction l with
  | nil => simp [readUntilNul]
  | cons b r ih =>
    simp only [readUntilNul]
    by_cases hb : b = 0
    · simp [hb]
    · simp [hb]
      omega

theorem parseTreeDesc_cases (fd hsh : List Nat) :
    (∃ e, parseTreeDesc fd hsh = .ok e) ∨ parseTreeDesc fd hsh = .panic .descSplitUnwrap := by
  unfold parseTreeDesc
  rcases hs : splitOnceByte 32 (trimWs (utf8Lossy fd)) with _ | ⟨m, nm⟩
  · right; simp [hs]
  · left
    refine ⟨{ mode := trimEndNul m, hash := ⟨hsh⟩, name := trimEndNul nm }, ?_⟩
    simp [hs]

theorem treeEntriesLoop_cases : ∀ (N : Nat) (s : List Nat), s.length ≤ N →
    (∃ es, treeEntriesLoop s = .ok es) ∨ treeEntriesLoop s = .panic .descSplitUnwrap := by
  intro N
  induction N using Nat.strong_induction_on with
  | _ N ih =>
    intro s hs
    rw [treeEntriesLoop.eq_def]
    split
    · exact Or.inl ⟨[], rfl⟩
    · rename_i hge
      rcases parseTreeDesc_cases (readUntilNul s).1 ((readUntilNul s).2.take 20) with
        ⟨e, he⟩ | he
      · simp only [he]
        split
        · exact Or.inl ⟨[e], rfl⟩
        · rename_i hge2
          have hlt : ((readUntilNul s).2.drop 20).length < N := by
            have hle := readUntilNul_snd_le s
            simp only [List.length_drop] at *
            omega
          rcases ih ((readUntilNul s).2.drop 20).length hlt ((readUntilNul s).2.drop 20)
            (Nat.le_refl _) with ⟨es, hrec⟩ | hrec
          · simp only [hrec]; exact Or.inl ⟨e :: es, rfl⟩
          · simp [hrec]
      · simp [he]

theorem Tree_from_tree_file_cases (sha1 : List Nat → List Nat) (contents : List Nat) :
    (∃ t, Tree.from_tree_file sha1 contents = .ok t) ∨
      Tree.from_tree_file sha1 contents = .panic .descSplitUnwrap := by
  unfold Tree.from_tree_file
  rcases treeEntriesLoop_cases (readUntilNul contents).2.length (readUntilNul contents).2
    (Nat.le_refl _) with ⟨es, he⟩ | he
  · left; exact ⟨_, by rw [he]⟩
  · right; rw [he]

unseal natToDecBytes utf8Lossy in
/-- Counterexample for claim C5 as stated: the recognized kinds are only blob
and tree, so a stored object whose kind token is `commit` does take the
unknown-kind failure path (and that path is a `panic!`, not a returned typed
error). -/
theorem C5_cx :
    decodeStoredBytes (fun _ => List.replicate 20 0) ⟨List.replicate 20 0⟩
        (bytes "commit 4" ++ [0] ++ bytes "init") =
      .panic (.unknownObjectType (bytes "commit")) := by
  decide

/-- Claim C5 as amended: for a stored object with a well-formed header, the
decode ends in the unknown-object-type panic (a process termination carrying
the kind token, not a returned typed error) exactly when the kind token is
neither `blob` nor `tree`; in particular a `commit` kind token takes the
unknown-kind failure path. -/
theorem C5_thm (sha1 : List Nat → List Nat) (h : GitHash) (k : List Nat) (n : Nat)
    (rest : List Nat) (hkb : ∀ b ∈ k, 33 ≤ b ∧ b ≤ 126) (hn : n < 2 ^ 64) :
    isUnknownKindPanic
        (decodeStoredBytes sha1 h (k ++ [32] ++ natToDecBytes n ++ [0] ++ rest)) = true ↔
      (k ≠ bytes "blob" ∧ k ≠ bytes "tree") := by
  rw [decodeStoredBytes_header sha1 h k n rest hkb hn]
  by_cases hb : k = bytes "blob"
  · rw [if_pos hb]
    rcases hsegs : splitNul (utf8Lossy rest) with _ | ⟨second, ss⟩
    · exact absurd hsegs (splitNul_ne_nil _)
    · rcases strSliceTo_cases second n with hsl | hsl <;>
        simp [hsl, isUnknownKindPanic, hb]
  · rw [if_neg hb]
    by_cases ht : k = bytes "tree"
    · rw [if_pos ht]
      subst ht
      have hcase := Tree_from_tree_file_cases sha1
        ((bytes "tree" ++ [32] ++ natToDecBytes n) ++ 0 :: utf8Lossy rest)
      simp only [List.append_assoc, List.singleton_append, List.cons_append,
        List.nil_append] at hcase ⊢
      rcases hcase with ⟨t, hf⟩ | hf <;> simp [hf, isUnknownKindPanic]
    · rw [if_neg ht]
      simp [isUnknownKindPanic, hb, ht]

/-- Witness for C5 at the kind token `commit` with an empty payload. -/
theorem C5_wit :
    isUnknownKindPanic
        (decodeStoredBytes (fun _ => List.replicate 20 0) ⟨List.replicate 20 0⟩
          (bytes "commit" ++ [32] ++ natToDecBytes 0 ++ [0] ++ [])) = true ↔
      (bytes "commit" ≠ bytes "blob" ∧ bytes "commit" ≠ bytes "tree") :=
  C5_thm (fun _ => List.replicate 20 0) ⟨List.replicate 20 0⟩ (bytes "commit") 0 []
    (by decide) (by decide)

/-!
### Claim C3: raw digest bytes in the tree decoder
-/

theorem parseTreeDesc_good (mode name hsh : List Nat) (b : Nat) (m0 : List Nat)
    (hbm : mode = b :: m0) (hmb : ∀ x ∈ mode, 33 ≤ x ∧ x ≤ 126)
    (hnb : ∀ x ∈ name, 32 ≤ x ∧ x ≤ 126) :
    parseTreeDesc (((mode ++ [32]) ++ name) ++ [0]) hsh =
      .ok { mode := mode, hash := ⟨hsh⟩, name := name } := by
  have hascii : ∀ x ∈ ((mode ++ [32]) ++ name) ++ [0], x < 128 := by
    intro x hx
    simp only [List.mem_append, List.mem_singleton] at hx
    rcases hx with ((hx | hx) | hx) | hx
    · have := hmb x hx; omega
    · omega
    · have := hnb x hx; omega
    · omega
  have hlossy := utf8Lossy_ascii (((mode ++ [32]) ++ name) ++ [0]) hascii
  have hshape : ((mode ++ [32]) ++ name) ++ [0] = b :: ((m0 ++ 32 :: name) ++ [0]) := by
    rw [hbm]; simp
  have hbw : isAsciiWs b = false := by
    have := hmb b (by rw [hbm]; exact List.mem_cons_self _ _)
    simp only [isAsciiWs, decide_eq_false_iff_not]
    omega
  have htrim := trimWs_keep b (m0 ++ 32 :: name) hbw
  have hshape2 : b :: ((m0 ++ 32 :: name) ++ [0]) = mode ++ 32 :: (name ++ [0]) := by
    rw [hbm]; simp
  have hm32 : ¬ 32 ∈ mode := fun hx => by have := hmb 32 hx; omega
  have hsplit := splitOnceByte_append 32 mode (name ++ [0]) hm32
  have hmode0 : ¬ 0 ∈ mode := fun hx => by have := hmb 0 hx; omega
  have hname0 : ¬ 0 ∈ name := fun hx => by have := hnb 0 hx; omega
  unfold parseTreeDesc
  rw [hlossy, hshape, htrim, hshape2]
  simp only [hsplit, trimEndNul_append_nul, trimEndNul_no_nul mode hmode0,
    trimEndNul_no_nul name hname0]

theorem treeEntriesLoop_body (es : List TreeEntry) :
    (∀ e ∈ es, goodEntry e) → treeEntriesLoop (Tree.body_from_entries es) = .ok es := by
  induction es with
  | nil =>
    intro _
    rw [treeEntriesLoop.eq_def]
    simp [Tree.body_from_entries, readUntilNul]
  | cons e es ih =>
    intro hgood
    obtain ⟨hm, hmb, hnb, hh⟩ := hgood e (List.mem_cons_self _ _)
    obtain ⟨b, m0, hbm⟩ : ∃ b m0, e.mode = b :: m0 := by
      cases hc : e.mode with
      | nil => exact absurd hc hm
      | cons b m0 => exact ⟨b, m0, rfl⟩
    have h0a : ¬ (0 : Nat) ∈ (e.mode ++ [32]) ++ e.name := by
      intro hx
      simp only [List.mem_append, List.mem_singleton] at hx
      rcases hx with (hx | hx) | hx
      · have := hmb 0 hx; omega
      · omega
      · have := hnb 0 hx; omega
    have h1 : Tree.body_from_entries (e :: es) =
        ((e.mode ++ [32]) ++ e.name) ++ 0 :: (e.hash.hash ++ Tree.body_from_entries es) := by
      simp [Tree.body_from_entries, List.append_assoc]
    have htake : (e.hash.hash ++ Tree.body_from_entries es).take 20 = e.hash.hash :=
      List.take_left' hh
    have hdrop : (e.hash.hash ++ Tree.body_from_entries es).drop 20 =
        Tree.body_from_entries es := List.drop_left' hh
    have hpd := parseTreeDesc_good e.mode e.name e.hash.hash b m0 hbm hmb hnb
    rw [treeEntriesLoop.eq_def, h1, readUntilNul_append _ _ h0a]
    simp only [List.length_append, hh]
    rw [if_neg (by omega)]
    simp only [htake, hdrop, hpd]
    rcases hes : es with _ | ⟨e2, es2⟩
    · simp [Tree.body_from_entries]
    · have hg2 := hgood e2 (by rw [hes]; simp)
      obtain ⟨hm2, _, _, hh2⟩ := hg2
      have hlb : (Tree.body_from_entries (e2 :: es2)).length =
          e2.mode.length + 1 + e2.name.length + 1 + 20 + (Tree.body_from_entries es2).length := by
        simp [Tree.body_from_entries, hh2]
        omega
      have hrec := ih (fun x hx => hgood x (List.mem_cons_of_mem _ hx))
      rw [hes] at hrec
      rw [if_neg (by omega), hrec]

/-- Claim C3 as amended: inside `Tree::from_tree_file` the decoder scans text
up to each null terminator and then unconditionally consumes exactly 20 raw
bytes as the digest, by byte-offset bookkeeping, so for well-formed entries it
recovers every digest byte exactly as encoded, including digests containing
nulls, spaces or newlines.  (The stored-object pipeline, by contrast, first
applies a lossy text conversion to the whole buffer, so digests reach this
decoder intact only when the payload bytes survive that conversion; see the
counterexample.) -/
theorem C3_thm (sha1 : List Nat → List Nat) (es : List TreeEntry)
    (hgood : ∀ e ∈ es, goodEntry e)
    (_hsize : (Tree.contents_from_entries es).length ≤ 8192) :
    Tree.from_tree_file sha1 (Tree.contents_from_entries es) =
      .ok { hash := ⟨sha1 (Tree.contents_from_entries es)⟩, entries := es } := by
  have hdig := natToDecBytes_digits (Tree.body_from_entries es).length
  have hhdr0 : ¬ (0 : Nat) ∈
      bytes "tree " ++ natToDecBytes (Tree.body_from_entries es).length := by
    intro hx
    simp only [List.mem_append] at hx
    rcases hx with hx | hx
    · simp [bytes] at hx
    · have := hdig 0 hx; omega
  have hcts : Tree.contents_from_entries es =
      (bytes "tree " ++ natToDecBytes (Tree.body_from_entries es).length) ++
        0 :: Tree.body_from_entries es := by
    simp [Tree.contents_from_entries, List.append_assoc]
  unfold Tree.from_tree_file
  rw [hcts, readUntilNul_append _ _ hhdr0]
  simp only [treeEntriesLoop_body es hgood]

unseal natToDecBytes treeEntriesLoop utf8Lossy in
/-- Witness for C3 at one concrete entry whose digest contains a null, a
newline and a space among its raw bytes. -/
theorem C3_wit :
    Tree.from_tree_file (fun _ => List.replicate 20 0)
        (Tree.contents_from_entries
          [{ mode := bytes "100644", hash := ⟨0 :: 10 :: 32 :: List.replicate 17 0⟩,
             name := bytes "a" }]) =
      .ok
        { hash := ⟨List.replicate 20 0⟩,
          entries := [{ mode := bytes "100644",
                        hash := ⟨0 :: 10 :: 32 :: List.replicate 17 0⟩,
                        name := bytes "a" }] } :=
  C3_thm (fun _ => List.replicate 20 0)
    [{ mode := bytes "100644", hash := ⟨0 :: 10 :: 32 :: List.replicate 17 0⟩,
       name := bytes "a" }]
    (by decide) (by decide)

unseal natToDecBytes treeEntriesLoop utf8Lossy in
/-- Counterexample for claim C3 as stated: through the stored-object pipeline
the whole buffer is first decoded with `from_utf8_lossy`, so a digest byte
`0x80` is replaced by the three replacement-character bytes and the decoded
entry digest differs from the encoded one. -/
theorem C3_cx :
    (match decodeStoredBytes (fun _ => List.replicate 20 0) ⟨List.replicate 20 0⟩
        (Tree.contents_from_entries
          [{ mode := bytes "100644", hash := ⟨128 :: List.replicate 19 0⟩,
             name := bytes "a" }]) with
      | .ok (.tree t) => t.entries.map (fun e => e.hash.hash)
      | _ => []) ≠ [128 :: List.replicate 19 0] := by
  decide

/-!
### Claim C7: determinism of the tree builder
-/

theorem bytesLe_total : ∀ a b : List Nat, bytesLe a b = true ∨ bytesLe b a = true := by
  intro a
  induction a with
  | nil => intro b; exact Or.inl rfl
  | cons x xs ih =>
    intro b
    cases b with
    | nil => exact Or.inr rfl
    | cons y ys =>
      by_cases hxy : x < y
      · left; simp [bytesLe, hxy]
      · by_cases hyx : y < x
        · right; simp [bytesLe, hyx]
        · have hxe : x = y := by omega
          subst hxe
          rcases ih ys with h | h
          · left; simp [bytesLe, Nat.lt_irrefl, h]
          · right; simp [bytesLe, Nat.lt_irrefl, h]

theorem bytesLe_trans : ∀ a b c : List Nat,
    bytesLe a b = true → bytesLe b c = true → bytesLe a c = true := by
  intro a
  induction a with
  | nil => intro b c _ _; rfl
  | cons x xs ih =>
    intro b c hab hbc
    cases b with
    | nil => simp [bytesLe] at hab
    | cons y ys =>
      cases c with
      | nil => simp [bytesLe] at hbc
      | cons z zs =>
        simp only [bytesLe] at hab hbc ⊢
        by_cases h1 : x < y
        · rw [if_pos h1] at hab
          by_cases h2 : y < z
          · rw [if_pos (by omega : x < z)]
          · by_cases h3 : z < y
            · rw [if_neg h2, if_pos h3] at hbc
              exact absurd hbc (by simp)
            · have : y = z := by omega
              subst this
              rw [if_pos h1]
        · by_cases h4 : y < x
          · rw [if_neg h1, if_pos h4] at hab
            exact absurd hab (by simp)
          · have : x = y := by omega
            subst this
            rw [if_neg h1, if_neg h4] at hab
            by_cases h2 : x < z
            · rw [if_pos h2]
            · by_cases h3 : z < x
              · rw [if_neg h2, if_pos h3] at hbc
                exact absurd hbc (by simp)
              · rw [if_neg h2, if_neg h3] at hbc ⊢
                exact ih ys zs hab hbc

theorem bytesLe_antisymm : ∀ a b : List Nat,
    bytesLe a b = true → bytesLe b a = true → a = b := by
  intro a
  induction a with
  | nil =>
    intro b _ hba
    cases b with
    | nil => rfl
    | cons y ys => simp [bytesLe] at hba
  | cons x xs ih =>
    intro b hab hba
    cases b with
    | nil => simp [bytesLe] at hab
    | cons y ys =>
      simp only [bytesLe] at hab hba
      by_cases h1 : x < y
      · rw [if_neg (by omega : ¬ y < x), if_pos h1] at hba
        exact absurd hba (by simp)
      · by_cases h2 : y < x
        · rw [if_neg h1, if_pos h2] at hab
          exact absurd hab (by simp)
        · have hxe : x = y := by omega
          subst hxe
          rw [if_neg h1, if_neg h2] at hab hba
          rw [ih ys hab hba]

theorem eq_of_perm_sorted_nodup :
    ∀ {l1 l2 : List (List Nat × Fs)}, l1.Perm l2 →
      l1.Pairwise (fun a b => entryLe a b = true) →
      l2.Pairwise (fun a b => entryLe a b = true) →
      (l1.map Prod.fst).Nodup → l1 = l2 := by
  intro l1
  induction l1 with
  | nil =>
    intro l2 hp _ _ _
    exact hp.nil_eq
  | cons a t1 ih =>
    intro l2 hp hs1 hs2 hnd
    cases l2 with
    | nil =>
      have hl := hp.length_eq
      simp at hl
    | cons b t2 =>
      have hab : a = b := by
        have ha2 : a ∈ b :: t2 := hp.mem_iff.mp (List.mem_cons_self _ _)
        have hb1 : b ∈ a :: t1 := hp.symm.mem_iff.mp (List.mem_cons_self _ _)
        rcases List.mem_cons.mp ha2 with h1 | ha2t
        · exact h1
        rcases List.mem_cons.mp hb1 with h1 | hb1t
        · exact h1.symm
        have hle1 : entryLe a b = true := (List.pairwise_cons.mp hs1).1 b hb1t
        have hle2 : entryLe b a = true := (List.pairwise_cons.mp hs2).1 a ha2t
        have hfst : a.1 = b.1 := bytesLe_antisymm _ _ hle1 hle2
        exfalso
        have hnd3 : (∀ x : Fs, (a.1, x) ∉ t1) ∧ (List.map Prod.fst t1).Nodup := by
          simpa using hnd
        refine hnd3.1 b.2 ?_
        rw [hfst]
        exact hb1t
      subst hab
      have hpt : t1.Perm t2 := hp.cons_inv
      have hnd3 : (∀ x : Fs, (a.1, x) ∉ t1) ∧ (List.map Prod.fst t1).Nodup := by
        simpa using hnd
      have hrec := ih hpt (List.pairwise_cons.mp hs1).2 (List.pairwise_cons.mp hs2).2 hnd3.2
      rw [hrec]

theorem fsNodup_dir (cs : List (List Nat × Fs)) (h : fsNodup (Fs.dir cs) = true) :
    (cs.map Prod.fst).Nodup ∧ fsNodupChildren cs = true := by
  unfold fsNodup at h
  rw [Bool.and_eq_true] at h
  exact ⟨of_decide_eq_true h.1, h.2⟩

theorem fsNodupChildren_mem : ∀ {cs : List (List Nat × Fs)} {n : List Nat} {c : Fs},
    fsNodupChildren cs = true → (n, c) ∈ cs → fsNodup c = true := by
  intro cs
  induction cs with
  | nil =>
    intro n c _ hm
    simp at hm
  | cons p t ih =>
    intro n c hall hm
    rcases p with ⟨n2, c2⟩
    simp only [fsNodupChildren, Bool.and_eq_true] at hall
    rcases List.mem_cons.mp hm with h1 | h2
    · cases h1
      exact hall.1
    · exact ih hall.2 h2

theorem entryLe_total : ∀ a b : List Nat × Fs, (entryLe a b || entryLe b a) = true := by
  intro a b
  rcases bytesLe_total a.1 b.1 with h | h <;> simp [entryLe, h]

theorem entryLe_trans : ∀ a b c : List Nat × Fs,
    entryLe a b = true → entryLe b c = true → entryLe a c = true :=
  fun _ _ _ hab hbc => bytesLe_trans _ _ _ hab hbc

theorem tree_from_directory_shuffle : ∀ (N : Nat) (cs : List (List Nat × Fs)),
    sizeOf cs ≤ N → fsNodup (Fs.dir cs) = true →
    ∀ (sha1 : List Nat → List Nat) (s1 s2 : DirShuffle),
      tree_from_directory sha1 s1 cs = tree_from_directory sha1 s2 cs := by
  intro N
  induction N using Nat.strong_induction_on with
  | _ N ih =>
    intro cs hsz hnd sha1 s1 s2
    obtain ⟨hnames, hch⟩ := fsNodup_dir cs hnd
    have hperm12 : ((s1 cs).val).Perm ((s2 cs).val) :=
      (s1 cs).property.trans (s2 cs).property.symm
    have hs1 := @List.sorted_mergeSort _ entryLe entryLe_trans entryLe_total ((s1 cs).val)
    have hs2 := @List.sorted_mergeSort _ entryLe entryLe_trans entryLe_total ((s2 cs).val)
    have hpm1 : ((s1 cs).val.mergeSort entryLe).Perm ((s2 cs).val.mergeSort entryLe) :=
      (List.mergeSort_perm _ _).trans (hperm12.trans (List.mergeSort_perm _ _).symm)
    have hnd1 : (((s1 cs).val.mergeSort entryLe).map Prod.fst).Nodup := by
      have hp : (((s1 cs).val.mergeSort entryLe).map Prod.fst).Perm (cs.map Prod.fst) :=
        ((List.mergeSort_perm _ _).trans (s1 cs).property).map Prod.fst
      exact (hp.nodup_iff).mpr hnames
    have heq : (s1 cs).val.mergeSort entryLe = (s2 cs).val.mergeSort entryLe :=
      eq_of_perm_sorted_nodup hpm1 hs1 hs2 hnd1
    conv_lhs => rw [tree_from_directory.eq_def]
    conv_rhs => rw [tree_from_directory.eq_def]
    rw [heq]
    refine congrArg (Tree.from_entries sha1) ?_
    apply List.map_congr_left
    intro x _
    rcases x with ⟨⟨name, child⟩, hmem⟩
    cases child with
    | file contents => rfl
    | dir cs2 =>
      have hmem2 : (name, Fs.dir cs2) ∈ (s2 cs).val.mergeSort entryLe :=
        List.mem_of_mem_filter hmem
      rw [List.mem_mergeSort] at hmem2
      have hmem3 : (name, Fs.dir cs2) ∈ cs := ((s2 cs).property).mem_iff.mp hmem2
      have hsize2 : sizeOf cs2 < N := by
        have h4 := List.sizeOf_lt_of_mem hmem3
        simp [Fs.dir.sizeOf_spec] at h4
        omega
      have hnd2 : fsNodup (Fs.dir cs2) = true := fsNodupChildren_mem hch hmem3
      have hrec := ih (sizeOf cs2) hsize2 cs2 (Nat.le_refl _) hnd2 sha1 s1 s2
      simp only [hrec]

/-- Claim C7 (confirmed): building the tree of a directory whose levels have
pairwise distinct child names is independent of the enumeration order returned
by the directory walk: any two enumeration oracles yield the same tree and in
particular the same root digest, because the children are sorted by name
byte-wise before the payload is assembled and the `.git` store directory is
excluded. -/
theorem C7_thm (sha1 : List Nat → List Nat) (s1 s2 : DirShuffle)
    (cs : List (List Nat × Fs)) (h : fsNodup (Fs.dir cs) = true) :
    tree_from_directory sha1 s1 cs = tree_from_directory sha1 s2 cs ∧
      (tree_from_directory sha1 s1 cs).hash = (tree_from_directory sha1 s2 cs).hash := by
  have hmain := tree_from_directory_shuffle (sizeOf cs) cs (Nat.le_refl _) h sha1 s1 s2
  exact ⟨hmain, by rw [hmain]⟩

/-- Witness for C7: a two-file, one-subdirectory tree built with the identity
enumeration and with the reversed enumeration. -/
theorem C7_wit :
    tree_from_directory (fun _ => List.replicate 20 0) idShuffle
        [(bytes "b.txt", Fs.file (bytes "y")), (bytes "a.txt", Fs.file (bytes "x")),
          (bytes "sub", Fs.dir [(bytes "c.txt", Fs.file (bytes "z"))])] =
      tree_from_directory (fun _ => List.replicate 20 0) revShuffle
        [(bytes "b.txt", Fs.file (bytes "y")), (bytes "a.txt", Fs.file (bytes "x")),
          (bytes "sub", Fs.dir [(bytes "c.txt", Fs.file (bytes "z"))])] ∧
      (tree_from_directory (fun _ => List.replicate 20 0) idShuffle
        [(bytes "b.txt", Fs.file (bytes "y")), (bytes "a.txt", Fs.file (bytes "x")),
          (bytes "sub", Fs.dir [(bytes "c.txt", Fs.file (bytes "z"))])]).hash =
      (tree_from_directory (fun _ => List.replicate 20 0) revShuffle
        [(bytes "b.txt", Fs.file (bytes "y")), (bytes "a.txt", Fs.file (bytes "x")),
          (bytes "sub", Fs.dir [(bytes "c.txt", Fs.file (bytes "z"))])]).hash :=
  C7_thm (fun _ => List.replicate 20 0) idShuffle revShuffle
    [(bytes "b.txt", Fs.file (bytes "y")), (bytes "a.txt", Fs.file (bytes "x")),
      (bytes "sub", Fs.dir [(bytes "c.txt", Fs.file (bytes "z"))])]
    (by decide)

end GitRs
